import Mathlib

/-!
Shallow embedding of `src/upload_to_dune.py` (stock-price fetch / reconcile /
publish pipeline).

Modelling conventions:
* Calendar dates are day numbers (`Nat`, days since the configured epoch
  2025-01-01, so `START_DATE = 0`); adding one day is `+ 1`.
* A close price is only ever copied around by this program (never computed
  with), so it is modelled as `Int`; the float coercion in the source is
  value-preserving for the purposes of every claim.
* A pandas DataFrame with columns `date,symbol,close` is a `List Row` in row
  order.  The intermediate frame produced by the left merge, whose `close`
  column may hold NaN, is a `List MRow` (`close : Option Int`, `none` = NaN).
* `sort_values("date")` is modelled as a stable insertion sort on the date
  key; pandas leaves the relative order of equal dates unspecified, the
  embedding resolves it to input order.
* HTTP is abstracted: a batch request is a function from the page offset to a
  `Response` (status code, decoded `data` rows, the optional
  `pagination.total` field).  The while-loop of `fetch_symbols_data` is given
  explicit fuel, `none` meaning the fuel ran out before the loop ended.
-/

/-- One row of the `date,symbol,close` frame: a PricePoint. -/
structure Row where
  date : Nat
  symbol : String
  close : Int
deriving DecidableEq

/-- One row of the merged frame before `dropna`: `close` may be missing. -/
structure MRow where
  date : Nat
  symbol : String
  close : Option Int
deriving DecidableEq

/-- Date order on rows, the key of `sort_values("date")`. -/
def dateLE (a b : Row) : Prop := a.date ≤ b.date

instance : DecidableRel dateLE := fun a b => Nat.decLe a.date b.date

/-- Minimum of the `date` column (`symbol_df["date"].min()`); `none` on an
empty frame. -/
def minDate : List Row → Option Nat
  | [] => none
  | r :: rs => some (rs.foldl (fun m x => min m x.date) r.date)

/-- The rows of `df` for one symbol, sorted by date
(`df[df["symbol"] == symbol].sort_values("date")`). -/
def sortedSymbolRows (df : List Row) (s : String) : List Row :=
  List.insertionSort dateLE (df.filter (fun r => r.symbol == s))

/-- The day column `pd.date_range(first_date, end_date, freq="D")`,
inclusive on both ends (empty when `f > today`). -/
def allDaysFrom (f today : Nat) : List Nat := List.range' f (today + 1 - f)

/-- The rows the left merge produces for one calendar day `d`: every matching
row of `sdf` in order, or a single NaN row when the day is absent. -/
def dayRows (sdf : List Row) (s : String) (d : Nat) : List MRow :=
  if (sdf.filter (fun r => r.date == d)).isEmpty then [⟨d, s, none⟩]
  else (sdf.filter (fun r => r.date == d)).map (fun r => ⟨d, s, some r.close⟩)

/-- The merged frame `full_df.merge(symbol_df, on=["date","symbol"],
how="left")`: left-frame order (the day sequence), each day expanded to its
matches. -/
def mergedRows (sdf : List Row) (s : String) (f today : Nat) : List MRow :=
  (allDaysFrom f today).flatMap (dayRows sdf s)

/-- Forward fill of the `close` column
(`full_df.groupby("symbol")["close"].ffill()`, a single group): a present
value is kept and becomes the new carry, a missing value is replaced by the
carry. -/
def ffill (last : Option Int) : List MRow → List MRow
  | [] => []
  | ⟨d, s, some c⟩ :: t => ⟨d, s, some c⟩ :: ffill (some c) t
  | ⟨d, s, none⟩ :: t => ⟨d, s, last⟩ :: ffill last t

/-- The carry value after forward-filling a list (the last defined close, or
the initial carry if none). -/
def carryAfter (last : Option Int) (l : List MRow) : Option Int :=
  l.foldl (fun c m => match m.close with | some v => some v | none => c) last

/-- One row of `dropna(subset=["close"])`: kept iff the close is defined. -/
def toRow (m : MRow) : Option Row := m.close.map (fun c => ⟨m.date, m.symbol, c⟩)

/-- The body of the per-symbol loop of `fill_missing_dates`: empty symbols
are skipped (`continue`), otherwise merge against the full day range,
forward-fill and drop the leading NaN rows. -/
def fillSymbol (df : List Row) (s : String) (today : Nat) : List Row :=
  match minDate (sortedSymbolRows df s) with
  | none => []
  | some f => (ffill none (mergedRows (sortedSymbolRows df s) s f today)).filterMap toRow

/-- `fill_missing_dates(df, symbols)` with the current UTC date made an
explicit argument: concatenation of the per-symbol gap-filled frames in
symbol order. -/
def fill_missing_dates (df : List Row) (symbols : List String) (today : Nat) : List Row :=
  symbols.flatMap (fun s => fillSymbol df s today)

/-- One decoded MarketStack page response: HTTP status, the `data` rows
(already coerced to `Row`s) and the `pagination.total` field when present
(`r.json().get("pagination", {}).get("total", 0)` defaults a missing field
to `0`). -/
structure Response where
  status : Nat
  data : List Row
  total : Option Nat
deriving DecidableEq

/-- The inner `while True` paging loop of `fetch_symbols_data` for one batch,
page size `limit = 1000`.  `resp` maps an offset to the page response; `acc`
is `all_data` so far.  A non-200 status or an empty `data` list breaks out
keeping `acc`; otherwise the rows are appended and the loop stops as soon as
`offset + limit >= total` (missing total = 0), else re-requests at
`offset + limit`.  `none` = fuel exhausted. -/
def fetchLoop (resp : Nat → Response) : Nat → Nat → List Row → Option (List Row)
  | 0, _, _ => none
  | fuel + 1, offset, acc =>
    if (resp offset).status ≠ 200 then some acc
    else if (resp offset).data.isEmpty then some acc
    else if (resp offset).total.getD 0 ≤ offset + 1000 then some (acc ++ (resp offset).data)
    else fetchLoop resp fuel (offset + 1000) (acc ++ (resp offset).data)

/-- The batch slices `symbols[i:i+batch_size]` of the outer `for` loop (for
`batch_size ≥ 1`, the only way the source calls it). -/
def chunks {α : Type} (n : Nat) : List α → List (List α)
  | [] => []
  | a :: t => (a :: t).take n :: chunks n (t.drop (n - 1))
termination_by l => l.length
decreasing_by
  simp only [List.length_drop, List.length_cons]
  omega

/-- The outer batch loop: each batch runs the paging loop from offset 0,
extending the shared `all_data` accumulator. -/
def runBatches (resp : List String → Nat → Response) (fuel : Nat) :
    List (List String) → List Row → Option (List Row)
  | [], acc => some acc
  | b :: rest, acc =>
    match fetchLoop (resp b) fuel 0 acc with
    | none => none
    | some acc2 => runBatches resp fuel rest acc2

/-- `fetch_symbols_data(symbols, start_date, batch_size)`: all batches in
order, starting from an empty accumulator.  (The final column selection and
date/close coercion of the source are identities in this model.) -/
def fetch_symbols_data (resp : List String → Nat → Response)
    (symbols : List String) (batchSize fuel : Nat) : Option (List Row) :=
  runBatches resp fuel (chunks batchSize symbols) []

/-- Configured absolute start date `START_DATE = "2025-01-01"`, day 0 of the
model's calendar. -/
def START_DATE : Nat := 0

/-- The `last_date` of `__main__`: the maximum cached date across all symbols
when a cache file exists, `START_DATE` otherwise.  An existing but empty
cache frame has no maximum (`max()` is NaT and the subsequent `strftime`
raises), modelled as `none`. -/
def lastCachedDate : Option (List Row) → Option Nat
  | none => some START_DATE
  | some [] => none
  | some (r :: rs) => some (rs.foldl (fun m x => max m x.date) r.date)

/-- `fetch_start_date = last_date + timedelta(days=1)`. -/
def fetchStartDate (cache : Option (List Row)) : Option Nat :=
  (lastCachedDate cache).map (· + 1)

/-- The `__main__` run (network abstracted): `cache` is the cache file
contents (`none` = file absent), `fetch` gives the rows
`fetch_symbols_data` returns for a given start date.  Returns
`(cache file contents after the run, payload published to Dune)`;
outer `none` = the empty-cache-frame crash. -/
def mainRun (cache : Option (List Row)) (fetch : Nat → List Row)
    (symbols : List String) (today : Nat) :
    Option (Option (List Row) × List Row) :=
  match fetchStartDate cache with
  | none => none
  | some start =>
    if (fetch start).isEmpty then some (cache, cache.getD [])
    else some (some (fill_missing_dates (cache.getD [] ++ fetch start) symbols today),
      fill_missing_dates (cache.getD [] ++ fetch start) symbols today)

/-! ### The `date` column maximum (cache freshness) -/

theorem foldl_max_init_le (rs : List Row) (a : Nat) :
    a ≤ rs.foldl (fun m x => max m x.date) a := by
  induction rs generalizing a with
  | nil => exact Nat.le_refl a
  | cons r t ih =>
    simp only [List.foldl_cons]
    exact Nat.le_trans (Nat.le_max_left _ _) (ih (max a r.date))

theorem foldl_max_mem_le (rs : List Row) (a : Nat) :
    ∀ r ∈ rs, r.date ≤ rs.foldl (fun m x => max m x.date) a := by
  induction rs generalizing a with
  | nil => intro r h; cases h
  | cons x t ih =>
    intro r hr
    simp only [List.foldl_cons]
    rcases List.mem_cons.mp hr with h | h
    · subst h
      exact Nat.le_trans (Nat.le_max_right a r.date) (foldl_max_init_le t (max a r.date))
    · exact ih (max a x.date) r h

theorem foldl_max_eq_init_or_mem (rs : List Row) (a : Nat) :
    rs.foldl (fun m x => max m x.date) a = a ∨
      ∃ r ∈ rs, rs.foldl (fun m x => max m x.date) a = r.date := by
  induction rs generalizing a with
  | nil => exact Or.inl rfl
  | cons x t ih =>
    simp only [List.foldl_cons]
    rcases ih (max a x.date) with h | ⟨r, hr, h⟩
    · rw [h]
      by_cases hax : x.date ≤ a
      · rw [Nat.max_eq_left hax]; exact Or.inl rfl
      · rw [Nat.max_eq_right (Nat.le_of_not_le hax)]
        exact Or.inr ⟨x, List.mem_cons_self x t, rfl⟩
    · exact Or.inr ⟨r, List.mem_cons_of_mem x hr, h⟩

/-! ### The `date` column minimum -/

theorem foldl_min_le_init (rs : List Row) (a : Nat) :
    rs.foldl (fun m x => min m x.date) a ≤ a := by
  induction rs generalizing a with
  | nil => exact Nat.le_refl a
  | cons r t ih =>
    simp only [List.foldl_cons]
    exact Nat.le_trans (ih (min a r.date)) (Nat.min_le_left _ _)

theorem foldl_min_le_mem (rs : List Row) (a : Nat) :
    ∀ r ∈ rs, rs.foldl (fun m x => min m x.date) a ≤ r.date := by
  induction rs generalizing a with
  | nil => intro r h; cases h
  | cons x t ih =>
    intro r hr
    simp only [List.foldl_cons]
    rcases List.mem_cons.mp hr with h | h
    · subst h
      exact Nat.le_trans (foldl_min_le_init t (min a r.date)) (Nat.min_le_right a r.date)
    · exact ih (min a x.date) r h

theorem foldl_min_eq_init_or_mem (rs : List Row) (a : Nat) :
    rs.foldl (fun m x => min m x.date) a = a ∨
      ∃ r ∈ rs, rs.foldl (fun m x => min m x.date) a = r.date := by
  induction rs generalizing a with
  | nil => exact Or.inl rfl
  | cons x t ih =>
    simp only [List.foldl_cons]
    rcases ih (min a x.date) with h | ⟨r, hr, h⟩
    · rw [h]
      by_cases hax : a ≤ x.date
      · rw [Nat.min_eq_left hax]; exact Or.inl rfl
      · rw [Nat.min_eq_right (Nat.le_of_not_le hax)]
        exact Or.inr ⟨x, List.mem_cons_self x t, rfl⟩
    · exact Or.inr ⟨r, List.mem_cons_of_mem x hr, h⟩

theorem minDate_eq_none_iff (l : List Row) : minDate l = none ↔ l = [] := by
  cases l <;> simp [minDate]

theorem minDate_spec (l : List Row) (f : Nat) (h : minDate l = some f) :
    (∃ r ∈ l, r.date = f) ∧ ∀ r ∈ l, f ≤ r.date := by
  cases l with
  | nil => simp [minDate] at h
  | cons x t =>
    simp only [minDate, Option.some.injEq] at h
    constructor
    · rcases foldl_min_eq_init_or_mem t x.date with h0 | ⟨r, hr, h0⟩
      · exact ⟨x, List.mem_cons_self x t, by rw [← h, h0]⟩
      · exact ⟨r, List.mem_cons_of_mem x hr, by rw [← h, h0]⟩
    · intro r hr
      rcases List.mem_cons.mp hr with h1 | h1
      · subst h1; rw [← h]; exact foldl_min_le_init t r.date
      · rw [← h]; exact foldl_min_le_mem t x.date r h1

theorem minDate_eq_some_of_spec (l : List Row) (f : Nat)
    (hmem : ∃ r ∈ l, r.date = f) (hle : ∀ r ∈ l, f ≤ r.date) :
    minDate l = some f := by
  cases l with
  | nil => rcases hmem with ⟨r, hr, _⟩; cases hr
  | cons x t =>
    obtain ⟨g, hg⟩ : ∃ g, minDate (x :: t) = some g := ⟨_, rfl⟩
    obtain ⟨⟨r, hr, hrd⟩, hglb⟩ := minDate_spec _ g hg
    have h1 : f ≤ g := hrd ▸ hle r hr
    have h2 : g ≤ f := by
      obtain ⟨r2, hr2, hr2d⟩ := hmem
      exact hr2d ▸ hglb r2 hr2
    rw [hg]
    exact congrArg some (Nat.le_antisymm h2 h1)

theorem minDate_eq_some_iff (l : List Row) (f : Nat) :
    minDate l = some f ↔ (∃ r ∈ l, r.date = f) ∧ ∀ r ∈ l, f ≤ r.date :=
  ⟨minDate_spec l f, fun h => minDate_eq_some_of_spec l f h.1 h.2⟩

theorem minDate_perm {l1 l2 : List Row} (h : l1.Perm l2) : minDate l1 = minDate l2 := by
  cases h2 : minDate l2 with
  | none =>
    rw [minDate_eq_none_iff] at h2 ⊢
    subst h2
    exact h.eq_nil
  | some f =>
    rw [minDate_eq_some_iff] at h2 ⊢
    obtain ⟨⟨r, hr, hrd⟩, hle⟩ := h2
    exact ⟨⟨r, h.mem_iff.mpr hr, hrd⟩, fun x hx => hle x (h.mem_iff.mp hx)⟩

theorem minDate_sortedSymbolRows (df : List Row) (s : String) :
    minDate (sortedSymbolRows df s) = minDate (df.filter (fun r => r.symbol == s)) :=
  minDate_perm (List.perm_insertionSort dateLE _)

/-! ### Stability of the sort with respect to the per-day filter -/

theorem mem_sortedSymbolRows {df : List Row} {s : String} {r : Row} :
    r ∈ sortedSymbolRows df s ↔ r ∈ df ∧ r.symbol = s := by
  unfold sortedSymbolRows
  rw [(List.perm_insertionSort dateLE _).mem_iff, List.mem_filter]
  simp only [beq_iff_eq]

theorem filter_date_orderedInsert (a : Row) (l : List Row) (d : Nat) :
    (List.orderedInsert dateLE a l).filter (fun r => r.date == d) =
      ((a :: l).filter (fun r => r.date == d)) := by
  induction l with
  | nil => rfl
  | cons b t ih =>
    by_cases hab : dateLE a b
    · simp only [List.orderedInsert]
      rw [if_pos hab]
    · simp only [List.orderedInsert]
      rw [if_neg hab]
      have hba : b.date < a.date := Nat.lt_of_not_le hab
      by_cases had : a.date = d
      · have hbd : ¬b.date = d := by omega
        simp [List.filter_cons, had, hbd, ih]
      · simp [List.filter_cons, had, ih]

theorem filter_date_insertionSort (l : List Row) (d : Nat) :
    (List.insertionSort dateLE l).filter (fun r => r.date == d) =
      l.filter (fun r => r.date == d) := by
  induction l with
  | nil => rfl
  | cons a t ih =>
    rw [List.insertionSort, filter_date_orderedInsert]
    simp [List.filter_cons, ih]

theorem filter_date_sortedSymbolRows (df : List Row) (s : String) (d : Nat) :
    (sortedSymbolRows df s).filter (fun r => r.date == d) =
      (df.filter (fun r => r.symbol == s)).filter (fun r => r.date == d) :=
  filter_date_insertionSort _ d

/-! ### The day expansion of the left merge -/

theorem dayRows_ne_nil (sdf : List Row) (s : String) (d : Nat) : dayRows sdf s d ≠ [] := by
  unfold dayRows
  split
  · simp
  · next h =>
    intro hc
    rw [List.map_eq_nil_iff] at hc
    exact h (List.isEmpty_iff.mpr hc)

theorem mem_dayRows {sdf : List Row} {s : String} {d : Nat} {m : MRow}
    (h : m ∈ dayRows sdf s d) : m.date = d ∧ m.symbol = s := by
  unfold dayRows at h
  split at h
  · rcases List.mem_singleton.mp h with rfl
    exact ⟨rfl, rfl⟩
  · obtain ⟨r, _, rfl⟩ := List.mem_map.mp h
    exact ⟨rfl, rfl⟩

theorem dayRows_of_no_match {sdf : List Row} (s : String) {d : Nat}
    (h : sdf.filter (fun r => r.date == d) = []) : dayRows sdf s d = [⟨d, s, none⟩] := by
  unfold dayRows
  rw [if_pos (List.isEmpty_iff.mpr h)]

theorem dayRows_of_match {sdf : List Row} (s : String) {d : Nat}
    (h : sdf.filter (fun r => r.date == d) ≠ []) :
    dayRows sdf s d =
      (sdf.filter (fun r => r.date == d)).map (fun r => ⟨d, s, some r.close⟩) := by
  unfold dayRows
  rw [if_neg (fun hc => h (List.isEmpty_iff.mp hc))]

theorem mem_mergedRows {sdf : List Row} {s : String} {f today : Nat} {m : MRow}
    (h : m ∈ mergedRows sdf s f today) : m.date ∈ allDaysFrom f today ∧ m.symbol = s := by
  unfold mergedRows at h
  obtain ⟨d, hd, hm⟩ := List.mem_flatMap.mp h
  obtain ⟨hdate, hsym⟩ := mem_dayRows hm
  exact ⟨hdate ▸ hd, hsym⟩

/-! ### Forward fill -/

theorem ffill_map_date (last : Option Int) (l : List MRow) :
    (ffill last l).map MRow.date = l.map MRow.date := by
  induction l generalizing last with
  | nil => rfl
  | cons m t ih =>
    obtain ⟨d, s, c⟩ := m
    cases c <;> simp [ffill, ih]

theorem mem_ffill {last : Option Int} {l : List MRow} {m : MRow} (h : m ∈ ffill last l) :
    ∃ m0 ∈ l, m.date = m0.date ∧ m.symbol = m0.symbol := by
  induction l generalizing last with
  | nil => cases h
  | cons x t ih =>
    obtain ⟨d, s, c⟩ := x
    cases c with
    | none =>
      simp only [ffill] at h
      rcases List.mem_cons.mp h with rfl | h2
      · exact ⟨⟨d, s, none⟩, List.mem_cons_self _ _, rfl, rfl⟩
      · obtain ⟨m0, hm0, he⟩ := ih h2
        exact ⟨m0, List.mem_cons_of_mem _ hm0, he⟩
    | some v =>
      simp only [ffill] at h
      rcases List.mem_cons.mp h with rfl | h2
      · exact ⟨⟨d, s, some v⟩, List.mem_cons_self _ _, rfl, rfl⟩
      · obtain ⟨m0, hm0, he⟩ := ih h2
        exact ⟨m0, List.mem_cons_of_mem _ hm0, he⟩

theorem carryAfter_cons_none (last : Option Int) (d : Nat) (s : String) (t : List MRow) :
    carryAfter last (⟨d, s, none⟩ :: t) = carryAfter last t := rfl

theorem carryAfter_cons_some (last : Option Int) (d : Nat) (s : String) (c : Int)
    (t : List MRow) : carryAfter last (⟨d, s, some c⟩ :: t) = carryAfter (some c) t := rfl

theorem carryAfter_append (last : Option Int) (l1 l2 : List MRow) :
    carryAfter last (l1 ++ l2) = carryAfter (carryAfter last l1) l2 := by
  simp [carryAfter, List.foldl_append]

theorem ffill_append (last : Option Int) (l1 l2 : List MRow) :
    ffill last (l1 ++ l2) = ffill last l1 ++ ffill (carryAfter last l1) l2 := by
  induction l1 generalizing last with
  | nil => rfl
  | cons m t ih =>
    obtain ⟨d, s, c⟩ := m
    cases c <;> simp [ffill, carryAfter_cons_none, carryAfter_cons_some, ih]

theorem ffill_all_some {last : Option Int} (h : last.isSome = true) (l : List MRow) :
    ∀ m ∈ ffill last l, m.close.isSome = true := by
  induction l generalizing last with
  | nil => intro m hm; cases hm
  | cons x t ih =>
    obtain ⟨d, s, c⟩ := x
    intro m hm
    cases c with
    | none =>
      simp only [ffill] at hm
      rcases List.mem_cons.mp hm with rfl | hm2
      · exact h
      · exact ih h m hm2
    | some v =>
      simp only [ffill] at hm
      rcases List.mem_cons.mp hm with rfl | hm2
      · rfl
      · exact ih Option.isSome_some m hm2

theorem ffill_all_some_of_head {d : Nat} {s : String} {c : Int} (t : List MRow)
    (last : Option Int) :
    ∀ m ∈ ffill last (⟨d, s, some c⟩ :: t), m.close.isSome = true := by
  intro m hm
  simp only [ffill] at hm
  rcases List.mem_cons.mp hm with rfl | hm2
  · rfl
  · exact ffill_all_some Option.isSome_some t m hm2

theorem ffill_exists_carry (last : Option Int) (l : List MRow) (h : l ≠ []) :
    ∃ m ∈ ffill last l, m.close = carryAfter last l := by
  induction l generalizing last with
  | nil => exact absurd rfl h
  | cons x t ih =>
    obtain ⟨d, s, c⟩ := x
    by_cases ht : t = []
    · subst ht
      cases c with
      | none =>
        exact ⟨⟨d, s, last⟩, List.mem_cons_self _ _, rfl⟩
      | some v =>
        exact ⟨⟨d, s, some v⟩, List.mem_cons_self _ _, rfl⟩
    · cases c with
      | none =>
        obtain ⟨m, hm, hc⟩ := ih last ht
        exact ⟨m, by simp only [ffill]; exact List.mem_cons_of_mem _ hm,
          by rw [carryAfter_cons_none]; exact hc⟩
      | some v =>
        obtain ⟨m, hm, hc⟩ := ih (some v) ht
        exact ⟨m, by simp only [ffill]; exact List.mem_cons_of_mem _ hm,
          by rw [carryAfter_cons_some]; exact hc⟩

theorem ffill_id_of_all_some (last : Option Int) (l : List MRow)
    (h : ∀ m ∈ l, m.close.isSome = true) : ffill last l = l := by
  induction l generalizing last with
  | nil => rfl
  | cons x t ih =>
    obtain ⟨d, s, c⟩ := x
    cases c with
    | none => exact absurd (h _ (List.mem_cons_self _ _)) (by simp)
    | some v =>
      simp only [ffill]
      rw [ih (some v) (fun m hm => h m (List.mem_cons_of_mem _ hm))]

/-! ### The `dropna` projection -/

theorem toRow_eq_some_iff {m : MRow} {r : Row} :
    toRow m = some r ↔ ∃ c, m.close = some c ∧ r = ⟨m.date, m.symbol, c⟩ := by
  obtain ⟨d, s, c⟩ := m
  cases c <;> simp [toRow, eq_comm]

theorem filterMap_toRow_map_date (l : List MRow) (h : ∀ m ∈ l, m.close.isSome = true) :
    (l.filterMap toRow).map Row.date = l.map MRow.date := by
  induction l with
  | nil => rfl
  | cons x t ih =>
    obtain ⟨d, s, c⟩ := x
    cases c with
    | none => exact absurd (h _ (List.mem_cons_self _ _)) (by simp)
    | some v =>
      rw [List.filterMap_cons]
      simp only [toRow, Option.map_some]
      simp [ih (fun m hm => h m (List.mem_cons_of_mem _ hm))]

theorem filterMap_toRow_dates_sublist (l : List MRow) :
    ((l.filterMap toRow).map Row.date).Sublist (l.map MRow.date) := by
  induction l with
  | nil => exact List.Sublist.refl []
  | cons x t ih =>
    obtain ⟨d, s, c⟩ := x
    cases c with
    | none =>
      rw [List.filterMap_cons]
      simp only [toRow, Option.map_none]
      exact ih.cons d
    | some v =>
      rw [List.filterMap_cons]
      simp only [toRow, Option.map_some]
      simpa using ih.cons₂ d

/-! ### Shape of the per-symbol output -/

theorem mem_fill_missing_dates {df : List Row} {symbols : List String} {today : Nat}
    {r : Row} :
    r ∈ fill_missing_dates df symbols today ↔ ∃ s ∈ symbols, r ∈ fillSymbol df s today := by
  unfold fill_missing_dates
  exact List.mem_flatMap

theorem mem_fillSymbol {df : List Row} {s : String} {today : Nat} {r : Row}
    (h : r ∈ fillSymbol df s today) :
    ∃ f, minDate (sortedSymbolRows df s) = some f ∧
      r.symbol = s ∧ r.date ∈ allDaysFrom f today := by
  unfold fillSymbol at h
  split at h
  · cases h
  · next f hf =>
    obtain ⟨m, hm, hmr⟩ := List.mem_filterMap.mp h
    obtain ⟨c, _, rfl⟩ := toRow_eq_some_iff.mp hmr
    obtain ⟨m0, hm0, hd, hs⟩ := mem_ffill hm
    obtain ⟨hdate, hsym⟩ := mem_mergedRows hm0
    exact ⟨f, hf, by simpa [hs] using hsym, by simp only [hd]; exact hdate⟩

theorem mem_fillSymbol_symbol {df : List Row} {s : String} {today : Nat} {r : Row}
    (h : r ∈ fillSymbol df s today) : r.symbol = s :=
  (mem_fillSymbol h).choose_spec.2.1

/-! ### Claim C3: no backfill before the first observation, absent symbols dropped -/

/-- C3: every row of the output of `fill_missing_dates` is preceded (weakly) by an
input row of the same symbol: no output row for a symbol S is dated earlier than
the minimum input date for S, and a symbol with no input PricePoint contributes
no output rows at all (no synthetic zero or null fill). -/
theorem c3_no_backfill (df : List Row) (symbols : List String) (today : Nat) :
    ∀ r ∈ fill_missing_dates df symbols today,
      ∃ r2 ∈ df, r2.symbol = r.symbol ∧ r2.date ≤ r.date := by
  intro r hr
  obtain ⟨s, _, hmem⟩ := mem_fill_missing_dates.mp hr
  obtain ⟨f, hf, hsym, hdate⟩ := mem_fillSymbol hmem
  obtain ⟨⟨r0, hr0, hr0d⟩, _⟩ := minDate_spec _ f hf
  obtain ⟨hr0df, hr0s⟩ := mem_sortedSymbolRows.mp hr0
  refine ⟨r0, hr0df, by rw [hr0s, hsym], ?_⟩
  unfold allDaysFrom at hdate
  have hr1 := List.mem_range'_1.mp hdate
  omega

/-- Witness for C3 at a concrete input: the forward-filled day 2 row of symbol A
(first observed on day 1) is preceded by the day-1 input row. -/
theorem c3_no_backfill_witness :
    ∃ r2 ∈ [Row.mk 1 "A" 5], r2.symbol = (Row.mk 2 "A" 5).symbol ∧
      r2.date ≤ (Row.mk 2 "A" 5).date :=
  c3_no_backfill [⟨1, "A", 5⟩] ["A"] 2 ⟨2, "A", 5⟩ (by decide)

/-! ### Claim C5: a failing page ends only its batch, earlier pages are kept -/

/-- C5: when page 1 of a batch succeeds with more data advertised and page 2
returns a non-200 status, the paging loop stops for that batch keeping the page-1
rows in the shared accumulator, and the batch loop carries on with the remaining
batches (no retry, no abort). -/
theorem c5_batch_error_partial (resp : List String → Nat → Response)
    (b : List String) (rest : List (List String)) (acc : List Row) (fuel : Nat)
    (hok : (resp b 0).status = 200) (hdata : (resp b 0).data ≠ [])
    (hmore : 1000 < (resp b 0).total.getD 0)
    (herr : (resp b 1000).status ≠ 200) :
    runBatches resp (fuel + 1 + 1) (b :: rest) acc =
      runBatches resp (fuel + 1 + 1) rest (acc ++ (resp b 0).data) := by
  have h1 : fetchLoop (resp b) (fuel + 1 + 1) 0 acc = some (acc ++ (resp b 0).data) := by
    rw [fetchLoop, if_neg (fun hc => hc hok),
      if_neg (fun hc => hdata (List.isEmpty_iff.mp hc)),
      if_neg (by omega), Nat.zero_add, fetchLoop, if_pos herr]
  simp only [runBatches, h1]

/-- Witness for C5: a concrete responder whose batch fails on page 2; the page-1
row is kept and the second batch is still processed. -/
theorem c5_batch_error_partial_witness :
    runBatches
        (fun _ o => if o = 0 then ⟨200, [⟨1, "BAD", 10⟩], some 5000⟩ else ⟨500, [], some 0⟩)
        2 [["BAD"], ["OK"]] [] =
      runBatches
        (fun _ o => if o = 0 then ⟨200, [⟨1, "BAD", 10⟩], some 5000⟩ else ⟨500, [], some 0⟩)
        2 [["OK"]] [⟨1, "BAD", 10⟩] := by
  simpa using c5_batch_error_partial
    (fun _ o => if o = 0 then ⟨200, [⟨1, "BAD", 10⟩], some 5000⟩ else ⟨500, [], some 0⟩)
    ["BAD"] [["OK"]] [] 0 (by decide) (by decide) (by decide) (by decide)

/-! ### Claim C6: an empty fetch leaves the cache untouched and republishes it -/

/-- C6: when the fetch returns no new rows, the run is not an error: the cache
file keeps exactly the contents it was loaded with and the published payload is
the existing cached series unchanged. -/
theorem c6_empty_fetch_preserves_cache (cache : Option (List Row))
    (fetch : Nat → List Row) (symbols : List String) (today st : Nat)
    (hst : fetchStartDate cache = some st) (hempty : fetch st = []) :
    mainRun cache fetch symbols today = some (cache, cache.getD []) := by
  simp only [mainRun, hst]
  rw [if_pos (List.isEmpty_iff.mpr hempty)]

/-- Witness for C6 at a concrete cached series and a fetch with no rows. -/
theorem c6_empty_fetch_preserves_cache_witness :
    mainRun (some [⟨0, "A", 5⟩]) (fun _ => []) ["A"] 3 =
      some (some [⟨0, "A", 5⟩], [⟨0, "A", 5⟩]) := by
  simpa using c6_empty_fetch_preserves_cache (some [⟨0, "A", 5⟩]) (fun _ => [])
    ["A"] 3 1 (by decide) rfl

/-! ### Claim C7: the single global fetch start date -/

/-- C7: with a cache present the fetch start date is the maximum cached date
across all symbols advanced by one day, but with no cache file the code starts
from `START_DATE + 1`, not from `START_DATE` as the claim states — data dated
`START_DATE` itself is never requested on a cold cache. -/
theorem c7_fetch_start_date (l : List Row) (hl : l ≠ []) :
    (∃ g, (∃ r ∈ l, r.date = g) ∧ (∀ r ∈ l, r.date ≤ g) ∧
        fetchStartDate (some l) = some (g + 1)) ∧
    fetchStartDate none = some (START_DATE + 1) ∧ START_DATE + 1 ≠ START_DATE := by
  refine ⟨?_, rfl, by decide⟩
  cases l with
  | nil => exact absurd rfl hl
  | cons x t =>
    have hg : fetchStartDate (some (x :: t)) =
        some (t.foldl (fun m r => max m r.date) x.date + 1) := rfl
    refine ⟨t.foldl (fun m r => max m r.date) x.date, ?_, ?_, hg⟩
    · rcases foldl_max_eq_init_or_mem t x.date with h | ⟨r, hr, h⟩
      · exact ⟨x, List.mem_cons_self x t, h.symm⟩
      · exact ⟨r, List.mem_cons_of_mem x hr, h.symm⟩
    · intro r hr
      rcases List.mem_cons.mp hr with h | h
      · subst h; exact foldl_max_init_le t r.date
      · exact foldl_max_mem_le t x.date r h

/-- Witness for C7 at a concrete one-row cache. -/
theorem c7_fetch_start_date_witness :
    (∃ g, (∃ r ∈ [Row.mk 3 "A" 1], r.date = g) ∧ (∀ r ∈ [Row.mk 3 "A" 1], r.date ≤ g) ∧
        fetchStartDate (some [Row.mk 3 "A" 1]) = some (g + 1)) ∧
    fetchStartDate none = some (START_DATE + 1) ∧ START_DATE + 1 ≠ START_DATE :=
  c7_fetch_start_date [⟨3, "A", 1⟩] (by decide)

/-! ### Claim C8: the paging loop terminates and pages exactly until exhaustion -/

theorem fetchLoop_isSome (resp : Nat → Response) (T : Nat)
    (hT : ∀ o, (resp o).total.getD 0 ≤ T) :
    ∀ fuel offset acc, T ≤ offset + 1000 * fuel →
      (fetchLoop resp (fuel + 1) offset acc).isSome = true := by
  intro fuel
  induction fuel with
  | zero =>
    intro offset acc hle
    rw [fetchLoop]
    by_cases h1 : (resp offset).status ≠ 200
    · rw [if_pos h1]; rfl
    · rw [if_neg h1]
      by_cases h2 : (resp offset).data.isEmpty
      · rw [if_pos h2]; rfl
      · rw [if_neg h2, if_pos (by have := hT offset; omega)]; rfl
  | succ n ih =>
    intro offset acc hle
    rw [fetchLoop]
    by_cases h1 : (resp offset).status ≠ 200
    · rw [if_pos h1]; rfl
    · rw [if_neg h1]
      by_cases h2 : (resp offset).data.isEmpty
      · rw [if_pos h2]; rfl
      · rw [if_neg h2]
        by_cases h3 : (resp offset).total.getD 0 ≤ offset + 1000
        · rw [if_pos h3]; rfl
        · rw [if_neg h3]
          exact ih (offset + 1000) _ (by omega)

/-- C8: for a source whose advertised total count is bounded (the well-formed
upstream the spec assumes), the paging loop terminates from offset 0 with some
result; and it advances the offset by the page limit exactly until the source
signals no more data: it recurses on the next offset precisely when the page
succeeded, was nonempty and `offset + limit` does not yet cover the advertised
total, and stops returning the accumulated rows on an empty page or once
`offset + limit` covers the total. -/
theorem c8_paging_terminates (resp : Nat → Response) (T : Nat)
    (hT : ∀ o, (resp o).total.getD 0 ≤ T) :
    (∃ fuel res, fetchLoop resp fuel 0 [] = some res) ∧
    (∀ fuel offset acc, (resp offset).status = 200 → (resp offset).data ≠ [] →
        offset + 1000 < (resp offset).total.getD 0 →
        fetchLoop resp (fuel + 1) offset acc =
          fetchLoop resp fuel (offset + 1000) (acc ++ (resp offset).data)) ∧
    (∀ fuel offset acc, (resp offset).status = 200 → (resp offset).data = [] →
        fetchLoop resp (fuel + 1) offset acc = some acc) ∧
    (∀ fuel offset acc, (resp offset).status = 200 → (resp offset).data ≠ [] →
        (resp offset).total.getD 0 ≤ offset + 1000 →
        fetchLoop resp (fuel + 1) offset acc = some (acc ++ (resp offset).data)) := by
  refine ⟨?_, ?_, ?_, ?_⟩
  · refine ⟨T + 1, ?_⟩
    have h := fetchLoop_isSome resp T hT T 0 [] (by omega)
    exact Option.isSome_iff_exists.mp h
  · intro fuel offset acc hok hdata hmore
    rw [fetchLoop, if_neg (fun hc => hc hok),
      if_neg (fun hc => hdata (List.isEmpty_iff.mp hc)), if_neg (by omega)]
  · intro fuel offset acc hok hdata
    rw [fetchLoop, if_neg (fun hc => hc hok), if_pos (List.isEmpty_iff.mpr hdata)]
  · intro fuel offset acc hok hdata hcov
    rw [fetchLoop, if_neg (fun hc => hc hok),
      if_neg (fun hc => hdata (List.isEmpty_iff.mp hc)), if_pos hcov]

/-- Witness for C8: the loop terminates against a concrete responder. -/
theorem c8_paging_terminates_witness :
    ∃ fuel res,
      fetchLoop (fun _ => ⟨200, ([] : List Row), some 0⟩) fuel 0 [] = some res :=
  (c8_paging_terminates (fun _ => ⟨200, [], some 0⟩) 0 (fun _ => Nat.le_refl 0)).1

/-! ### Claim C9: a successful page without pagination metadata stops the batch -/

/-- C9: a 200 page with nonempty data but no pagination total keeps the page's
rows and immediately stops paging for the batch: the missing total defaults
to 0, so the stop condition holds no matter what later pages would return. -/
theorem c9_missing_total_stops (resp : Nat → Response) (fuel offset : Nat)
    (acc : List Row) (hok : (resp offset).status = 200)
    (hdata : (resp offset).data ≠ []) (hnot : (resp offset).total = none) :
    fetchLoop resp (fuel + 1) offset acc = some (acc ++ (resp offset).data) := by
  rw [fetchLoop, if_neg (fun hc => hc hok),
    if_neg (fun hc => hdata (List.isEmpty_iff.mp hc)),
    if_pos (by rw [hnot]; exact Nat.zero_le _)]

/-- Witness for C9 at a concrete metadata-free response. -/
theorem c9_missing_total_stops_witness :
    fetchLoop (fun _ => ⟨200, [⟨5, "A", 7⟩], none⟩) 1 0 [] = some [⟨5, "A", 7⟩] := by
  simpa using c9_missing_total_stops (fun _ => ⟨200, [⟨5, "A", 7⟩], none⟩) 0 0 []
    (by decide) (by decide) (by decide)

/-! ### Claim C10: cached symbols outside the symbol set are silently erased -/

/-- C10: on a run that fetches new rows, a symbol present in the loaded cache
but absent from the resolved symbol set appears in neither the rewritten cache
file nor the published payload: `fill_missing_dates` iterates only over the
given symbols, so its cached history is lost. -/
theorem c10_uncovered_symbol_erased (cache : Option (List Row))
    (fetch : Nat → List Row) (symbols : List String) (today st : Nat) (S : String)
    (hst : fetchStartDate cache = some st) (hnew : fetch st ≠ [])
    (hS : S ∉ symbols) (_hcached : ∃ r ∈ cache.getD [], r.symbol = S) :
    ∃ full, mainRun cache fetch symbols today = some (some full, full) ∧
      ∀ r ∈ full, r.symbol ≠ S := by
  refine ⟨fill_missing_dates (cache.getD [] ++ fetch st) symbols today, ?_, ?_⟩
  · simp only [mainRun, hst]
    rw [if_neg (fun hc => hnew (List.isEmpty_iff.mp hc))]
  · intro r hr
    obtain ⟨s, hs, hmem⟩ := mem_fill_missing_dates.mp hr
    rw [mem_fillSymbol_symbol hmem]
    exact fun hc => hS (hc ▸ hs)

/-- Witness for C10: a cache holding symbol OLD, a fetch of symbol A only. -/
theorem c10_uncovered_symbol_erased_witness :
    ∃ full,
      mainRun (some [⟨0, "OLD", 5⟩]) (fun _ => [⟨1, "A", 3⟩]) ["A"] 1 =
        some (some full, full) ∧ ∀ r ∈ full, r.symbol ≠ "OLD" :=
  c10_uncovered_symbol_erased (some [⟨0, "OLD", 5⟩]) (fun _ => [⟨1, "A", 3⟩])
    ["A"] 1 1 "OLD" (by decide) (by decide) (by decide) ⟨⟨0, "OLD", 5⟩, by decide, rfl⟩

/-! ### Per-symbol block extraction and gap-free shape -/

theorem flatMap_congr {α β : Type} {l : List α} {g h : α → List β}
    (he : ∀ a ∈ l, g a = h a) : l.flatMap g = l.flatMap h := by
  induction l with
  | nil => rfl
  | cons x t ih =>
    rw [List.flatMap_cons, List.flatMap_cons, he x (List.mem_cons_self x t),
      ih (fun a ha => he a (List.mem_cons_of_mem x ha))]

theorem fillSymbol_eq {df : List Row} {s : String} {f : Nat} (today : Nat)
    (hmin : minDate (sortedSymbolRows df s) = some f) :
    fillSymbol df s today =
      (ffill none (mergedRows (sortedSymbolRows df s) s f today)).filterMap toRow := by
  unfold fillSymbol
  rw [hmin]

theorem filter_symbol_fill (df : List Row) (symbols : List String) (today : Nat)
    (S : String) (hnd : symbols.Nodup) (hS : S ∈ symbols) :
    (fill_missing_dates df symbols today).filter (fun r => r.symbol == S) =
      fillSymbol df S today := by
  induction symbols with
  | nil => cases hS
  | cons s rest ih =>
    rw [List.nodup_cons] at hnd
    unfold fill_missing_dates
    rw [List.flatMap_cons, List.filter_append]
    rcases List.mem_cons.mp hS with hSs | hS2
    · subst hSs
      have hall : ∀ r ∈ fillSymbol df S today, (r.symbol == S) = true := fun r hr =>
        beq_iff_eq.mpr (mem_fillSymbol_symbol hr)
      have hnil : ∀ r ∈ rest.flatMap (fun s2 => fillSymbol df s2 today),
          ¬(r.symbol == S) = true := by
        intro r hr hc
        obtain ⟨s2, hs2, hmem⟩ := List.mem_flatMap.mp hr
        rw [beq_iff_eq, mem_fillSymbol_symbol hmem] at hc
        exact hnd.1 (hc ▸ hs2)
      rw [List.filter_eq_self.mpr hall, List.filter_eq_nil_iff.mpr hnil, List.append_nil]
    · have hne : S ≠ s := fun hc => hnd.1 (hc ▸ hS2)
      have hnil : ∀ r ∈ fillSymbol df s today, ¬(r.symbol == S) = true := by
        intro r hr hc
        rw [beq_iff_eq, mem_fillSymbol_symbol hr] at hc
        exact hne hc.symm
      rw [List.filter_eq_nil_iff.mpr hnil, List.nil_append]
      exact ih hnd.2 hS2

theorem first_day_filter_ne_nil {sdf : List Row} {f : Nat} (hmin : minDate sdf = some f) :
    sdf.filter (fun r => r.date == f) ≠ [] := by
  obtain ⟨⟨r, hr, hrd⟩, _⟩ := minDate_spec _ f hmin
  intro hc
  rw [List.filter_eq_nil_iff] at hc
  exact hc r hr (by simp [hrd])

theorem allDaysFrom_cons (f today : Nat) (h : f ≤ today) :
    allDaysFrom f today = f :: List.range' (f + 1) (today - f) := by
  unfold allDaysFrom
  rw [show today + 1 - f = (today - f) + 1 from by omega, List.range'_succ]

theorem merged_all_some {df : List Row} {s : String} {f today : Nat}
    (hmin : minDate (sortedSymbolRows df s) = some f) (hft : f ≤ today) :
    ∀ m ∈ ffill none (mergedRows (sortedSymbolRows df s) s f today),
      m.close.isSome = true := by
  have hne := first_day_filter_ne_nil hmin
  cases hfil : (sortedSymbolRows df s).filter (fun r => r.date == f) with
  | nil => exact absurd hfil hne
  | cons r1 rs =>
    unfold mergedRows
    rw [allDaysFrom_cons f today hft, List.flatMap_cons, dayRows_of_match s hne, hfil,
      List.map_cons, List.cons_append]
    exact ffill_all_some_of_head _ none

theorem fillSymbol_map_date {df : List Row} {s : String} {f : Nat} (today : Nat)
    (hmin : minDate (sortedSymbolRows df s) = some f) (hft : f ≤ today) :
    (fillSymbol df s today).map Row.date =
      (mergedRows (sortedSymbolRows df s) s f today).map MRow.date := by
  rw [fillSymbol_eq today hmin,
    filterMap_toRow_map_date _ (merged_all_some hmin hft), ffill_map_date]

theorem dayRows_singleton_of_nodup {sdf : List Row} (s : String) (d : Nat)
    (hnd : (sdf.map Row.date).Nodup) :
    (dayRows sdf s d).map MRow.date = [d] := by
  cases hfil : sdf.filter (fun r => r.date == d) with
  | nil => rw [dayRows_of_no_match s hfil]; rfl
  | cons x t =>
    cases t with
    | nil =>
      rw [dayRows_of_match s (by rw [hfil]; exact List.cons_ne_nil x []), hfil]
      rfl
    | cons y t2 =>
      exfalso
      have hxmem : x ∈ sdf.filter (fun r => r.date == d) := by
        rw [hfil]; exact List.mem_cons_self x _
      have hymem : y ∈ sdf.filter (fun r => r.date == d) := by
        rw [hfil]; exact List.mem_cons_of_mem x (List.mem_cons_self y t2)
      have hx : x.date = d := beq_iff_eq.mp (List.mem_filter.mp hxmem).2
      have hy : y.date = d := beq_iff_eq.mp (List.mem_filter.mp hymem).2
      have hnd2 : ((sdf.filter (fun r => r.date == d)).map Row.date).Nodup :=
        hnd.sublist ((List.filter_sublist sdf).map Row.date)
      rw [hfil, List.map_cons, List.map_cons, List.nodup_cons] at hnd2
      exact hnd2.1 (by rw [hx, hy]; exact List.mem_cons_self d _)

theorem flatMap_dayRows_dates (sdf : List Row) (s : String) (days : List Nat)
    (hnd : (sdf.map Row.date).Nodup) :
    ((days.flatMap (dayRows sdf s)).map MRow.date) = days := by
  induction days with
  | nil => rfl
  | cons d t ih =>
    rw [List.flatMap_cons, List.map_append, dayRows_singleton_of_nodup s d hnd, ih,
      List.singleton_append]

/-! ### Claim C1: the reconciled series is gap-free per covered symbol -/

/-- C1 (amended): for an input frame with at most one PricePoint per
(date, symbol) and a symbol S that occurs in the duplicate-free symbols
argument and has at least one input PricePoint (first input date `f`), the
output rows for S carry exactly the dates `f, f+1, ..., today`, once each and
strictly increasing — exactly one PricePoint per calendar day between the
first observation and today (each with a defined close by construction). -/
theorem c1_gap_free (df : List Row) (symbols : List String) (today : Nat) (S : String)
    (f : Nat) (hnd : symbols.Nodup) (hS : S ∈ symbols)
    (hmin : minDate (df.filter (fun r => r.symbol == S)) = some f)
    (hdates : ((df.filter (fun r => r.symbol == S)).map Row.date).Nodup) :
    ((fill_missing_dates df symbols today).filter (fun r => r.symbol == S)).map Row.date =
      List.range' f (today + 1 - f) := by
  rw [filter_symbol_fill df symbols today S hnd hS]
  have hmin2 : minDate (sortedSymbolRows df S) = some f := by
    rw [minDate_sortedSymbolRows]; exact hmin
  have hnd2 : ((sortedSymbolRows df S).map Row.date).Nodup :=
    (((List.perm_insertionSort dateLE
      (df.filter (fun r => r.symbol == S))).map Row.date).nodup_iff).mpr hdates
  by_cases hft : f ≤ today
  · rw [fillSymbol_map_date today hmin2 hft]
    unfold mergedRows
    rw [flatMap_dayRows_dates _ S _ hnd2]
    rfl
  · have h0 : today + 1 - f = 0 := by omega
    rw [fillSymbol_eq today hmin2]
    unfold mergedRows allDaysFrom
    rw [h0]
    rfl

/-- Witness for C1 at a concrete input: symbol A observed on days 1 and 3,
today = 4; the output carries exactly days 1,2,3,4 for A. -/
theorem c1_gap_free_witness :
    ((fill_missing_dates [⟨1, "A", 5⟩, ⟨3, "A", 7⟩] ["A"] 4).filter
        (fun r => r.symbol == "A")).map Row.date = List.range' 1 4 :=
  c1_gap_free [⟨1, "A", 5⟩, ⟨3, "A", 7⟩] ["A"] 4 "A" 1 (by decide) (by decide)
    (by decide) (by decide)

/-- C1 counterexample to the claim as frozen: symbol A has an input PricePoint
(date 0, within range since today = 0), but A is not in the symbols argument,
so the output — which iterates only over the symbols argument — contains no
row for (0, A) at all, not exactly one. -/
theorem c1_counterexample :
    minDate (([⟨0, "A", 1⟩] : List Row).filter (fun r => r.symbol == "A")) = some 0 ∧
      fill_missing_dates [⟨0, "A", 1⟩] ["B"] 0 = [] := by
  constructor
  · decide
  · decide

/-! ### Splitting the day range around a filled day -/

theorem ffill_cons_none (last : Option Int) (d : Nat) (s : String) (t : List MRow) :
    ffill last (⟨d, s, none⟩ :: t) = ⟨d, s, last⟩ :: ffill last t := rfl

theorem range'_split_at (f n D : Nat) (h1 : f ≤ D) (h2 : D < f + n) :
    List.range' f n =
      List.range' f (D - f) ++ D :: List.range' (D + 1) (f + n - (D + 1)) := by
  calc List.range' f n
      = List.range' f ((n - (D - f)) + (D - f)) :=
        congrArg (fun k => List.range' f k) (by omega)
    _ = List.range' f (D - f) ++ List.range' (f + 1 * (D - f)) (n - (D - f)) :=
        (List.range'_append f (D - f) (n - (D - f)) 1).symm
    _ = List.range' f (D - f) ++ D :: List.range' (D + 1) (f + n - (D + 1)) := by
        rw [show f + 1 * (D - f) = D from by omega,
          show n - (D - f) = (f + n - (D + 1)) + 1 from by omega, List.range'_succ]

theorem range'_snoc (f m : Nat) :
    List.range' f (m + 1) = List.range' f m ++ [f + m] := by
  rw [List.range'_concat, Nat.one_mul]

theorem date_bounds_of_mem_ffill_flatMap {sdf : List Row} {s : String}
    {last : Option Int} {a n : Nat} {m : MRow}
    (hm : m ∈ ffill last ((List.range' a n).flatMap (dayRows sdf s))) :
    a ≤ m.date ∧ m.date < a + n := by
  obtain ⟨m0, hm0, hd, _⟩ := mem_ffill hm
  obtain ⟨d, hdmem, hmd⟩ := List.mem_flatMap.mp hm0
  have hb := List.mem_range'_1.mp hdmem
  have hdate := (mem_dayRows hmd).1
  omega

/-! ### Claim C2: forward-fill copies the latest earlier close -/

/-- C2: if the output of `fill_missing_dates` holds a row (D, S, c) for which
the input frame has no PricePoint at (D, S), then the output also holds
(D − 1, S, c): the synthesized close equals the close at the latest earlier
date carrying a real or previously filled value (which is day D − 1, since
the output is contiguous down to the first observation).  The spec's concrete
scenario (close 50 on 06-01, 55 on 06-04 yielding 50 on 06-02 and 06-03) is
the witness below. -/
theorem c2_forward_fill (df : List Row) (symbols : List String) (today D : Nat)
    (S : String) (c : Int)
    (hrow : Row.mk D S c ∈ fill_missing_dates df symbols today)
    (hnone : ∀ x ∈ df, x.symbol = S → x.date ≠ D) :
    Row.mk (D - 1) S c ∈ fill_missing_dates df symbols today := by
  obtain ⟨s, hs, hmem⟩ := mem_fill_missing_dates.mp hrow
  have hsym : S = s := mem_fillSymbol_symbol hmem
  rw [← hsym] at hs hmem
  obtain ⟨f, hf, -, -⟩ := mem_fillSymbol hmem
  rw [fillSymbol_eq today hf] at hmem
  have hnomatch : (sortedSymbolRows df S).filter (fun r => r.date == D) = [] := by
    rw [List.filter_eq_nil_iff]
    intro x hx hc
    obtain ⟨hxdf, hxs⟩ := mem_sortedSymbolRows.mp hx
    exact hnone x hxdf hxs (beq_iff_eq.mp hc)
  obtain ⟨m, hm, hmr⟩ := List.mem_filterMap.mp hmem
  obtain ⟨c2, hc2, he⟩ := toRow_eq_some_iff.mp hmr
  rw [Row.mk.injEq] at he
  have hmd : m.date = D := he.1.symm
  have hcc : c2 = c := he.2.2.symm
  unfold mergedRows allDaysFrom at hm
  have hDb := date_bounds_of_mem_ffill_flatMap hm
  have hfD : f ≤ D := by omega
  have hft : f ≤ today := by omega
  have hfltD : f < D := by
    rcases Nat.eq_or_lt_of_le hfD with he2 | h
    · exfalso
      apply first_day_filter_ne_nil hf
      rw [he2]
      exact hnomatch
    · exact h
  have hdays : List.range' f (today + 1 - f) =
      (List.range' f (D - 1 - f) ++ [D - 1]) ++
        D :: List.range' (D + 1) (f + (today + 1 - f) - (D + 1)) := by
    rw [range'_split_at f (today + 1 - f) D hfD (by omega)]
    rw [show D - f = (D - 1 - f) + 1 from by omega, range'_snoc,
      show f + (D - 1 - f) = D - 1 from by omega]
  have hmerged : (List.range' f (today + 1 - f)).flatMap
        (dayRows (sortedSymbolRows df S) S) =
      ((List.range' f (D - 1 - f)).flatMap (dayRows (sortedSymbolRows df S) S) ++
        dayRows (sortedSymbolRows df S) S (D - 1)) ++
      (MRow.mk D S none ::
        (List.range' (D + 1) (f + (today + 1 - f) - (D + 1))).flatMap
          (dayRows (sortedSymbolRows df S) S)) := by
    rw [hdays, List.flatMap_append, List.flatMap_append, List.flatMap_cons,
      List.flatMap_cons, List.flatMap_nil, List.append_nil,
      dayRows_of_no_match S hnomatch, List.singleton_append]
  have hfilled : ffill none ((List.range' f (today + 1 - f)).flatMap
        (dayRows (sortedSymbolRows df S) S)) =
      (ffill none ((List.range' f (D - 1 - f)).flatMap
          (dayRows (sortedSymbolRows df S) S)) ++
        ffill (carryAfter none ((List.range' f (D - 1 - f)).flatMap
            (dayRows (sortedSymbolRows df S) S)))
          (dayRows (sortedSymbolRows df S) S (D - 1))) ++
      (MRow.mk D S
          (carryAfter none
            ((List.range' f (D - 1 - f)).flatMap (dayRows (sortedSymbolRows df S) S) ++
              dayRows (sortedSymbolRows df S) S (D - 1))) ::
        ffill (carryAfter none
            ((List.range' f (D - 1 - f)).flatMap (dayRows (sortedSymbolRows df S) S) ++
              dayRows (sortedSymbolRows df S) S (D - 1)))
          ((List.range' (D + 1) (f + (today + 1 - f) - (D + 1))).flatMap
            (dayRows (sortedSymbolRows df S) S))) := by
    rw [hmerged, ffill_append, ffill_cons_none, ffill_append]
  rw [hfilled] at hm
  have hmiddle : m = MRow.mk D S
      (carryAfter none
        ((List.range' f (D - 1 - f)).flatMap (dayRows (sortedSymbolRows df S) S) ++
          dayRows (sortedSymbolRows df S) S (D - 1))) := by
    rcases List.mem_append.mp hm with hin1 | hin2
    · rcases List.mem_append.mp hin1 with hinA | hinB1
      · exfalso
        have hb := date_bounds_of_mem_ffill_flatMap hinA
        omega
      · exfalso
        obtain ⟨m0, hm0, hd0, -⟩ := mem_ffill hinB1
        have := (mem_dayRows hm0).1
        omega
    · rcases List.mem_cons.mp hin2 with hmeq | hinBl
      · exact hmeq
      · exfalso
        have hb := date_bounds_of_mem_ffill_flatMap hinBl
        omega
  have hcA : carryAfter none
      ((List.range' f (D - 1 - f)).flatMap (dayRows (sortedSymbolRows df S) S) ++
        dayRows (sortedSymbolRows df S) S (D - 1)) = some c := by
    have h1 : m.close = carryAfter none
        ((List.range' f (D - 1 - f)).flatMap (dayRows (sortedSymbolRows df S) S) ++
          dayRows (sortedSymbolRows df S) S (D - 1)) := by rw [hmiddle]
    rw [hc2, hcc] at h1
    exact h1.symm
  obtain ⟨m2, hm2, hm2c⟩ := ffill_exists_carry
    (carryAfter none ((List.range' f (D - 1 - f)).flatMap
      (dayRows (sortedSymbolRows df S) S)))
    (dayRows (sortedSymbolRows df S) S (D - 1)) (dayRows_ne_nil _ _ _)
  obtain ⟨m0, hm0, hm0d, hm0s⟩ := mem_ffill hm2
  have hm2date : m2.date = D - 1 := by rw [hm0d, (mem_dayRows hm0).1]
  have hm2sym : m2.symbol = S := by rw [hm0s, (mem_dayRows hm0).2]
  have hm2close : m2.close = some c := by
    rw [hm2c, ← carryAfter_append]
    exact hcA
  apply mem_fill_missing_dates.mpr
  refine ⟨S, hs, ?_⟩
  rw [fillSymbol_eq today hf]
  apply List.mem_filterMap.mpr
  refine ⟨m2, ?_, ?_⟩
  · unfold mergedRows allDaysFrom
    rw [hfilled]
    exact List.mem_append_left _ (List.mem_append_right _ hm2)
  · rw [toRow_eq_some_iff]
    exact ⟨c, hm2close, by rw [hm2date, hm2sym]⟩

/-- Witness for C2: the spec's scenario.  XYZ closes 50 on day 1 and 55 on
day 4 (a two-day gap); day 3 is synthesized with close 50, and the theorem
gives that day 2 carries the same close 50. -/
theorem c2_forward_fill_witness :
    fill_missing_dates [⟨1, "XYZ", 50⟩, ⟨4, "XYZ", 55⟩] ["XYZ"] 4 =
      [⟨1, "XYZ", 50⟩, ⟨2, "XYZ", 50⟩, ⟨3, "XYZ", 50⟩, ⟨4, "XYZ", 55⟩] ∧
    Row.mk 2 "XYZ" 50 ∈
      fill_missing_dates [⟨1, "XYZ", 50⟩, ⟨4, "XYZ", 55⟩] ["XYZ"] 4 :=
  ⟨by decide,
    c2_forward_fill [⟨1, "XYZ", 50⟩, ⟨4, "XYZ", 55⟩] ["XYZ"] 4 3 "XYZ" 50
      (by decide) (by decide)⟩

/-! ### Sortedness of the per-symbol output -/

theorem pairwise_le_of_all_eq {l : List Nat} {d : Nat} (h : ∀ x ∈ l, x = d) :
    l.Pairwise (· ≤ ·) := by
  induction l with
  | nil => exact List.Pairwise.nil
  | cons x t ih =>
    rw [List.pairwise_cons]
    refine ⟨fun y hy => ?_, ih (fun y hy => h y (List.mem_cons_of_mem x hy))⟩
    rw [h x (List.mem_cons_self x t), h y (List.mem_cons_of_mem x hy)]

theorem dayRows_dates_all_eq (sdf : List Row) (s : String) (d : Nat) :
    ∀ x ∈ (dayRows sdf s d).map MRow.date, x = d := by
  intro x hx
  obtain ⟨m, hm, rfl⟩ := List.mem_map.mp hx
  exact (mem_dayRows hm).1

theorem flatMap_dayRows_sorted (sdf : List Row) (s : String) (days : List Nat)
    (hdays : days.Pairwise (· < ·)) :
    ((days.flatMap (dayRows sdf s)).map MRow.date).Pairwise (· ≤ ·) := by
  rw [List.map_flatMap, List.flatMap_def, List.pairwise_flatten]
  constructor
  · intro l hl
    obtain ⟨d, _, rfl⟩ := List.mem_map.mp hl
    exact pairwise_le_of_all_eq (dayRows_dates_all_eq sdf s d)
  · rw [List.pairwise_map]
    refine hdays.imp ?_
    intro a b hab x hx y hy
    rw [dayRows_dates_all_eq sdf s a x hx, dayRows_dates_all_eq sdf s b y hy]
    omega

theorem mergedRows_dates_sorted (sdf : List Row) (s : String) (f today : Nat) :
    ((mergedRows sdf s f today).map MRow.date).Pairwise (· ≤ ·) := by
  unfold mergedRows allDaysFrom
  exact flatMap_dayRows_sorted sdf s _
    (List.pairwise_lt_range' f (today + 1 - f) 1 Nat.one_pos)

theorem fillSymbol_sorted (df : List Row) (s : String) (today : Nat) :
    ((fillSymbol df s today).map Row.date).Pairwise (· ≤ ·) := by
  unfold fillSymbol
  split
  · exact List.Pairwise.nil
  · next f hf =>
    refine List.Pairwise.sublist (filterMap_toRow_dates_sublist _) ?_
    rw [ffill_map_date]
    exact mergedRows_dates_sorted _ _ _ _

/-! ### Date domain and coverage of the per-symbol output -/

theorem fillSymbol_dates_dom {df : List Row} {s : String} {f : Nat} (today : Nat)
    (hf : minDate (sortedSymbolRows df s) = some f) :
    ∀ r ∈ fillSymbol df s today, r.date ∈ allDaysFrom f today := by
  intro r hr
  obtain ⟨f2, hf2, -, hdom⟩ := mem_fillSymbol hr
  rw [hf] at hf2
  rw [← Option.some.inj hf2] at hdom
  exact hdom

theorem mergedRows_dates_surj (sdf : List Row) (s : String) (f today : Nat) :
    ∀ d ∈ allDaysFrom f today, d ∈ (mergedRows sdf s f today).map MRow.date := by
  intro d hd
  unfold mergedRows
  rw [List.map_flatMap]
  apply List.mem_flatMap.mpr
  refine ⟨d, hd, ?_⟩
  cases hfil : sdf.filter (fun r => r.date == d) with
  | nil =>
    rw [dayRows_of_no_match s hfil]
    simp
  | cons x t =>
    rw [dayRows_of_match s (by rw [hfil]; exact List.cons_ne_nil x t), hfil]
    simp

theorem fillSymbol_dates_surj {df : List Row} {s : String} {f : Nat} (today : Nat)
    (hf : minDate (sortedSymbolRows df s) = some f) (hft : f ≤ today) :
    ∀ d ∈ allDaysFrom f today, ∃ r ∈ fillSymbol df s today, r.date = d := by
  intro d hd
  have h1 := mergedRows_dates_surj (sortedSymbolRows df s) s f today d hd
  rw [← ffill_map_date none, ← filterMap_toRow_map_date _ (merged_all_some hf hft)] at h1
  obtain ⟨r, hr, hrd⟩ := List.mem_map.mp h1
  refine ⟨r, ?_, hrd⟩
  rw [fillSymbol_eq today hf]
  exact hr

theorem minDate_fillSymbol {df : List Row} {s : String} {f : Nat} (today : Nat)
    (hf : minDate (sortedSymbolRows df s) = some f) (hft : f ≤ today) :
    minDate (fillSymbol df s today) = some f := by
  apply minDate_eq_some_of_spec
  · have hfd : f ∈ allDaysFrom f today := by
      unfold allDaysFrom
      exact List.mem_range'_1.mpr ⟨Nat.le_refl f, by omega⟩
    obtain ⟨r, hr, hrd⟩ := fillSymbol_dates_surj today hf hft f hfd
    exact ⟨r, hr, hrd⟩
  · intro r hr
    have hmem := fillSymbol_dates_dom today hf r hr
    unfold allDaysFrom at hmem
    have hb := List.mem_range'_1.mp hmem
    omega

/-! ### Reconstructing a sorted gap-free frame from its per-day filters -/

theorem sorted_min_split (l : List Row) (f : Nat)
    (hsort : (l.map Row.date).Pairwise (· ≤ ·)) (hge : ∀ r ∈ l, f ≤ r.date) :
    l = l.filter (fun r => r.date == f) ++ l.filter (fun r => !(r.date == f)) := by
  induction l with
  | nil => rfl
  | cons x t ih =>
    rw [List.map_cons, List.pairwise_cons] at hsort
    by_cases hx : x.date = f
    · rw [List.filter_cons_of_pos (by simp [hx]), List.filter_cons_of_neg (by simp [hx]),
        List.cons_append]
      exact congrArg (List.cons x)
        (ih hsort.2 (fun r hr => hge r (List.mem_cons_of_mem x hr)))
    · have hxgt : f < x.date :=
        Nat.lt_of_le_of_ne (hge x (List.mem_cons_self x t)) (fun hc => hx hc.symm)
      have htgt : ∀ r ∈ t, f < r.date := by
        intro r hr
        have := hsort.1 r.date (List.mem_map_of_mem Row.date hr)
        omega
      have h1 : (x :: t).filter (fun r => r.date == f) = [] := by
        rw [List.filter_cons_of_neg (by simp [hx]), List.filter_eq_nil_iff]
        intro r hr hc
        have := htgt r hr
        rw [beq_iff_eq] at hc
        omega
      have h2 : (x :: t).filter (fun r => !(r.date == f)) = x :: t := by
        rw [List.filter_eq_self]
        intro r hr
        rcases List.mem_cons.mp hr with rfl | hr2
        · simp [hx]
        · have := htgt r hr2
          simp only [Bool.not_eq_eq_eq_not, Bool.not_true, beq_eq_false_iff_ne]
          omega
      rw [h1, h2, List.nil_append]

theorem flatMap_filter_date_range (n : Nat) : ∀ (f : Nat) (l : List Row),
    ((l.map Row.date).Pairwise (· ≤ ·)) →
    (∀ r ∈ l, r.date ∈ List.range' f n) →
    (List.range' f n).flatMap (fun d => l.filter (fun r => r.date == d)) = l := by
  induction n with
  | zero =>
    intro f l _ hdom
    cases l with
    | nil => rfl
    | cons x t => exact absurd (hdom x (List.mem_cons_self x t)) (by simp)
  | succ n ih =>
    intro f l hsort hdom
    have hge : ∀ r ∈ l, f ≤ r.date := by
      intro r hr
      have := List.mem_range'_1.mp (hdom r hr)
      omega
    rw [List.range'_succ, List.flatMap_cons]
    have hB : ∀ d ∈ List.range' (f + 1) n,
        l.filter (fun r => r.date == d) =
          (l.filter (fun r => !(r.date == f))).filter (fun r => r.date == d) := by
      intro d hd
      have hdne : d ≠ f := by
        have := List.mem_range'_1.mp hd
        omega
      rw [List.filter_filter]
      apply List.filter_congr
      intro x _
      by_cases hxd : x.date = d
      · simp [hxd, hdne]
      · simp [hxd]
    rw [flatMap_congr hB]
    have hBsort : ((l.filter (fun r => !(r.date == f))).map Row.date).Pairwise (· ≤ ·) :=
      List.Pairwise.sublist ((List.filter_sublist l).map Row.date) hsort
    have hBdom : ∀ r ∈ l.filter (fun r => !(r.date == f)),
        r.date ∈ List.range' (f + 1) n := by
      intro r hr
      obtain ⟨hrl, hrne⟩ := List.mem_filter.mp hr
      have h1 := List.mem_range'_1.mp (hdom r hrl)
      have h2 : r.date ≠ f := by simpa using hrne
      exact List.mem_range'_1.mpr ⟨by omega, by omega⟩
    rw [ih (f + 1) _ hBsort hBdom]
    exact (sorted_min_split l f hsort hge).symm

theorem mergedRows_of_gapfree (B : List Row) (s : String) (f today : Nat)
    (hsort : (B.map Row.date).Pairwise (· ≤ ·))
    (hdom : ∀ r ∈ B, r.date ∈ allDaysFrom f today)
    (hsurj : ∀ d ∈ allDaysFrom f today, ∃ r ∈ B, r.date = d) :
    mergedRows B s f today = B.map (fun r => ⟨r.date, s, some r.close⟩) := by
  unfold mergedRows allDaysFrom
  have h1 : ∀ d ∈ List.range' f (today + 1 - f),
      dayRows B s d = (B.filter (fun r => r.date == d)).map
        (fun r => (⟨r.date, s, some r.close⟩ : MRow)) := by
    intro d hd
    obtain ⟨r0, hr0, hr0d⟩ := hsurj d hd
    have hne : B.filter (fun r => r.date == d) ≠ [] := by
      intro hc
      rw [List.filter_eq_nil_iff] at hc
      exact hc r0 hr0 (by simp [hr0d])
    rw [dayRows_of_match s hne]
    apply List.map_congr_left
    intro r hr
    have hrd : r.date = d := beq_iff_eq.mp (List.mem_filter.mp hr).2
    rw [hrd]
  rw [flatMap_congr h1, ← List.map_flatMap,
    flatMap_filter_date_range (today + 1 - f) f B hsort (fun r hr => hdom r hr)]

theorem filterMap_toRow_wrap (B : List Row) (s : String)
    (hsym : ∀ r ∈ B, r.symbol = s) :
    (B.map (fun r => (⟨r.date, s, some r.close⟩ : MRow))).filterMap toRow = B := by
  induction B with
  | nil => rfl
  | cons x t ih =>
    rw [List.map_cons,
      List.filterMap_cons_some (show toRow ⟨x.date, s, some x.close⟩ =
        some ⟨x.date, s, x.close⟩ from rfl),
      ih (fun r hr => hsym r (List.mem_cons_of_mem x hr))]
    have hxx : (⟨x.date, s, x.close⟩ : Row) = x := by
      obtain ⟨d, sy, c⟩ := x
      have hsy := hsym ⟨d, sy, c⟩ (List.mem_cons_self _ _)
      simp only [] at hsy
      rw [hsy]
    rw [hxx]

/-! ### Claim C4: reconciliation is idempotent -/

theorem fillSymbol_idem (df : List Row) (symbols : List String) (today : Nat)
    (s : String) (hnd : symbols.Nodup) (hs : s ∈ symbols) :
    fillSymbol (fill_missing_dates df symbols today) s today = fillSymbol df s today := by
  have hfilter := filter_symbol_fill df symbols today s hnd hs
  have hsym : ∀ r ∈ fillSymbol df s today, r.symbol = s :=
    fun r hr => mem_fillSymbol_symbol hr
  cases hmin : minDate (sortedSymbolRows df s) with
  | none =>
    have hB : fillSymbol df s today = [] := by unfold fillSymbol; rw [hmin]
    rw [hB] at hfilter
    rw [hB]
    unfold fillSymbol sortedSymbolRows
    rw [hfilter]
    rfl
  | some f =>
    by_cases hft : f ≤ today
    · have hsort := fillSymbol_sorted df s today
      have hdom := fillSymbol_dates_dom today hmin
      have hsurj := fillSymbol_dates_surj today hmin hft
      have hsorted : (fillSymbol df s today).Pairwise dateLE :=
        (@List.pairwise_map Row Nat Row.date (fun a b => a ≤ b)
          (fillSymbol df s today)).mp hsort
      have hssr : sortedSymbolRows (fill_missing_dates df symbols today) s =
          fillSymbol df s today := by
        unfold sortedSymbolRows
        rw [hfilter]
        exact List.Sorted.insertionSort_eq hsorted
      have hminB : minDate (fillSymbol df s today) = some f :=
        minDate_fillSymbol today hmin hft
      have hL : fillSymbol (fill_missing_dates df symbols today) s today =
          (ffill none (mergedRows (fillSymbol df s today) s f today)).filterMap toRow := by
        conv_lhs => unfold fillSymbol
        rw [hssr, hminB]
      have hall : ∀ m ∈ (fillSymbol df s today).map
          (fun r => (⟨r.date, s, some r.close⟩ : MRow)), m.close.isSome = true := by
        intro m hm
        obtain ⟨r, -, rfl⟩ := List.mem_map.mp hm
        rfl
      rw [hL, mergedRows_of_gapfree (fillSymbol df s today) s f today hsort hdom hsurj,
        ffill_id_of_all_some none _ hall, filterMap_toRow_wrap _ s hsym]
    · have hB : fillSymbol df s today = [] := by
        rw [fillSymbol_eq today hmin]
        unfold mergedRows allDaysFrom
        rw [show today + 1 - f = 0 from by omega]
        rfl
      rw [hB] at hfilter
      rw [hB]
      unfold fillSymbol sortedSymbolRows
      rw [hfilter]
      rfl

/-- C4 (amended): for a duplicate-free symbol list, reconciliation is
idempotent: applying `fill_missing_dates` to its own output, with no
additional rows and evaluated at the same current UTC date, returns the
output unchanged. -/
theorem c4_idempotent (df : List Row) (symbols : List String) (today : Nat)
    (hnd : symbols.Nodup) :
    fill_missing_dates (fill_missing_dates df symbols today) symbols today =
      fill_missing_dates df symbols today :=
  flatMap_congr (fun s hs => fillSymbol_idem df symbols today s hnd hs)

/-- Witness for C4 at a concrete two-symbol input. -/
theorem c4_idempotent_witness :
    fill_missing_dates (fill_missing_dates [⟨0, "A", 1⟩, ⟨2, "B", 3⟩] ["A", "B"] 3)
        ["A", "B"] 3 =
      fill_missing_dates [⟨0, "A", 1⟩, ⟨2, "B", 3⟩] ["A", "B"] 3 :=
  c4_idempotent [⟨0, "A", 1⟩, ⟨2, "B", 3⟩] ["A", "B"] 3 (by decide)

/-- C4 counterexample to the claim as frozen over every symbol list: with the
duplicated list [A, A] each occurrence re-expands every row of the other
occurrence's block, so re-reconciling the output (4 rows per day) differs
from the output (2 rows per day). -/
theorem c4_counterexample :
    fill_missing_dates (fill_missing_dates [⟨0, "A", 1⟩] ["A", "A"] 0) ["A", "A"] 0 ≠
      fill_missing_dates [⟨0, "A", 1⟩] ["A", "A"] 0 := by
  decide
